import Mathlib

/-!
# Mandelbrot renderer (`mandel.c`): embedding and verified properties

The C program is embedded as pure Lean functions.

* `int` values are mathematical integers reduced to the signed 32-bit range
  after every arithmetic operation (`wrap32`); a division by zero is a fault.
* `double` values are IEEE 754 binary64 numbers (`Double`), with
  round-to-nearest-even arithmetic.
* the bitmap container and the `MAKE_RGBA` macro come from `bitmap.h`, which
  is not part of the sources; they are modelled from the specification.
-/

namespace Mandel

/-! ## 32-bit `int` arithmetic -/

/-- Ways in which an embedded computation can stop without a value. -/
inductive Fault where
  | div_by_zero
  | out_of_fuel
  deriving DecidableEq, Repr

deriving instance DecidableEq for Except

/-- Smallest `int`. -/
def INT_MIN : Int := -2147483648

/-- Largest `int`. -/
def INT_MAX : Int := 2147483647

/-- The value is representable as a C `int`. -/
def is_int (v : Int) : Prop := INT_MIN ≤ v ∧ v ≤ INT_MAX

instance (v : Int) : Decidable (is_int v) := by
  unfold is_int; exact inferInstance

/-- Reduction of an integer to the signed 32-bit range (two's complement). -/
def wrap32 (v : Int) : Int := (v + 2147483648) % 4294967296 - 2147483648

/-- C `a + b` on `int`. -/
def cadd (a b : Int) : Int := wrap32 (a + b)

/-- C `a * b` on `int`. -/
def cmul (a b : Int) : Int := wrap32 (a * b)

/-- C `a / b` on `int`: truncation toward zero, a fault when `b` is zero. -/
def cdiv (a b : Int) : Except Fault Int :=
  if b = 0 then Except.error Fault.div_by_zero else Except.ok (wrap32 (Int.tdiv a b))

/-! ## IEEE 754 binary64 `double` arithmetic -/

/-- A `double`: not-a-number, a signed infinity, or the finite value
`(-1)^neg * m * 2^e` (a signed zero when `m = 0`). -/
inductive Double where
  | nan
  | inf (neg : Bool)
  | fin (neg : Bool) (m : Nat) (e : Int)
  deriving DecidableEq, Repr

namespace Double

/-- Number of binary digits of `n`, by halving at most `fuel` times. -/
def bitlen_aux : Nat → Nat → Nat
  | 0, _ => 0
  | fuel + 1, n => if n = 0 then 0 else bitlen_aux fuel (n / 2) + 1

/-- Number of binary digits of `n` (`0` for `0`). -/
def bitlen (n : Nat) : Nat := bitlen_aux n n

/-- Numerator and denominator of `num / den * 2^(e - E)`. -/
def scaled (num den : Nat) (e E : Int) : Nat × Nat :=
  if E ≤ e then (num * 2 ^ (e - E).toNat, den) else (num, den * 2 ^ (E - e).toNat)

/-- The binary64 value nearest to `(-1)^neg * num / den * 2^e` (ties to the even
significand), with gradual underflow and overflow to infinity. -/
def round_nearest_even (neg : Bool) (num den : Nat) (e : Int) : Double :=
  if num = 0 then fin neg 0 (-1074) else
    let E0 : Int := (bitlen num : Int) - (bitlen den : Int) - 1 + e - 52
    let s0 := scaled num den e E0
    let E1 : Int := if 9007199254740992 * s0.2 ≤ s0.1 then E0 + 1 else E0
    let E : Int := max E1 (-1074)
    let s := scaled num den e E
    let q := s.1 / s.2
    let r := s.1 % s.2
    let m := if s.2 < 2 * r ∨ (2 * r = s.2 ∧ q % 2 = 1) then q + 1 else q
    let m1 := if m = 9007199254740992 then 4503599627370496 else m
    let E2 : Int := if m = 9007199254740992 then E + 1 else E
    if 971 < E2 then inf neg else fin neg m1 E2

/-- Conversion of an `int` to `double` (always exact). -/
def of_int (i : Int) : Double := round_nearest_even (decide (i < 0)) i.natAbs 1 0

/-- The integer `(-1)^neg * m`. -/
def signed (neg : Bool) (m : Nat) : Int := if neg then -(m : Int) else (m : Int)

/-- Unary minus. -/
def neg : Double → Double
  | nan => nan
  | inf s => inf (!s)
  | fin s m e => fin (!s) m e

/-- C `a + b` on `double`. -/
def add : Double → Double → Double
  | nan, _ => nan
  | _, nan => nan
  | inf s, inf t => if s = t then inf s else nan
  | inf s, fin _ _ _ => inf s
  | fin _ _ _, inf t => inf t
  | fin s1 m1 e1, fin s2 m2 e2 =>
    let e := min e1 e2
    let v : Int := signed s1 (m1 * 2 ^ (e1 - e).toNat) + signed s2 (m2 * 2 ^ (e2 - e).toNat)
    if v = 0 then fin (s1 && s2) 0 (-1074) else round_nearest_even (decide (v < 0)) v.natAbs 1 e

/-- C `a - b` on `double`. -/
def sub (a b : Double) : Double := add a (neg b)

/-- C `a * b` on `double`. -/
def mul : Double → Double → Double
  | nan, _ => nan
  | _, nan => nan
  | inf s, inf t => inf (xor s t)
  | inf s, fin t m _ => if m = 0 then nan else inf (xor s t)
  | fin s m _, inf t => if m = 0 then nan else inf (xor s t)
  | fin s1 m1 e1, fin s2 m2 e2 => round_nearest_even (xor s1 s2) (m1 * m2) 1 (e1 + e2)

/-- C `a / b` on `double`. -/
def div : Double → Double → Double
  | nan, _ => nan
  | _, nan => nan
  | inf _, inf _ => nan
  | inf s, fin t _ _ => inf (xor s t)
  | fin s _ _, inf t => fin (xor s t) 0 (-1074)
  | fin s1 m1 e1, fin s2 m2 e2 =>
    if m2 = 0 then (if m1 = 0 then nan else inf (xor s1 s2))
    else round_nearest_even (xor s1 s2) m1 m2 (e1 - e2)

/-- C `a <= b` on `double`; false when either side is not a number. -/
def le : Double → Double → Bool
  | nan, _ => false
  | _, nan => false
  | inf s, inf t => s || !t
  | inf s, fin _ _ _ => s
  | fin _ _ _, inf t => !t
  | fin s1 m1 e1, fin s2 m2 e2 =>
    let e := min e1 e2
    decide (signed s1 (m1 * 2 ^ (e1 - e).toNat) ≤ signed s2 (m2 * 2 ^ (e2 - e).toNat))

/-- C `a < b` on `double`; false when either side is not a number. -/
def lt : Double → Double → Bool
  | nan, _ => false
  | _, nan => false
  | inf s, inf t => s && !t
  | inf s, fin _ _ _ => s
  | fin _ _ _, inf t => !t
  | fin s1 m1 e1, fin s2 m2 e2 =>
    let e := min e1 e2
    decide (signed s1 (m1 * 2 ^ (e1 - e).toNat) < signed s2 (m2 * 2 ^ (e2 - e).toNat))

/-- The value is not a number. -/
def is_nan : Double → Bool
  | nan => true
  | _ => false

end Double

/-! ## Colour mapping -/

/-- C `a << k` on `int` (two's complement). -/
def cshl (a : Int) (k : Nat) : Int := wrap32 (a * 2 ^ k)

/-- C `a | b` on `int`: bitwise or of the 32-bit two's complement patterns. -/
def cor (a b : Int) : Int :=
  wrap32 (Int.ofNat (Nat.lor (a % 4294967296).toNat (b % 4294967296).toNat))

/-- Modelled from the spec: the `MAKE_RGBA` macro of `bitmap.h`, which is not in
the sources. It packs four channels into one 32-bit value, red in the most
significant byte, then green, blue and alpha. -/
def MAKE_RGBA (r g b a : Int) : Int :=
  cor (cor (cor (cshl r 24) (cshl g 16)) (cshl b 8)) a

/-- One channel of `iteration_to_color`: the C expression `c * i / max_interations`. -/
def channel (c i max_interations : Int) : Except Fault Int :=
  cdiv (cmul c i) max_interations

/-- Embedding of `iteration_to_color`. -/
def iteration_to_color (i max_interations : Int) : Except Fault Int := do
  let r ← channel 55 i max_interations
  let g ← channel 155 i max_interations
  let b ← channel 255 i max_interations
  cdiv (MAKE_RGBA r g b 0) 5

/-! ## Escape-time evaluation -/

/-- The C expression `x*x + y*y`. -/
def norm_sq (x y : Double) : Double := Double.add (Double.mul x x) (Double.mul y y)

/-- The loop test of `iterations_at_point`: `(x*x + y*y <= 4) && iter < max_interations`. -/
def loop_test (x y : Double) (iter max_interations : Int) : Bool :=
  Double.le (norm_sq x y) (Double.of_int 4) && decide (iter < max_interations)

/-- The `while` loop of `iterations_at_point`, allowed at most `fuel` passes
through its body; it yields the final value of `iter`. -/
def iterations_loop (x0 y0 : Double) (max_interations : Int) :
    Nat → Double → Double → Int → Except Fault Int
  | 0, x, y, iter =>
    if loop_test x y iter max_interations then Except.error Fault.out_of_fuel
    else Except.ok iter
  | fuel + 1, x, y, iter =>
    if loop_test x y iter max_interations then
      let xt := Double.add (Double.sub (Double.mul x x) (Double.mul y y)) x0
      let yt := Double.add (Double.mul (Double.mul (Double.of_int 2) x) y) y0
      iterations_loop x0 y0 max_interations fuel xt yt (cadd iter 1)
    else Except.ok iter

/-- The value of `iter` when the loop of `iterations_at_point` is left. -/
def iteration_count (x y : Double) (max_interations : Int) : Except Fault Int :=
  iterations_loop x y max_interations max_interations.toNat x y 0

/-- Embedding of `iterations_at_point`. -/
def iterations_at_point (x y : Double) (max_interations : Int) : Except Fault Int := do
  let iter ← iteration_count x y max_interations
  iteration_to_color iter max_interations

/-! ## Bitmap container -/

/-- Modelled from the spec: the image buffer of `bitmap.h`/`bitmap.c`, which are
not in the sources: a `width` by `height` grid of packed colours, row-major. -/
structure bitmap where
  width : Int
  height : Int
  data : List Int
  deriving DecidableEq, Repr

/-- Modelled from the spec: `bitmap_create` (not in the sources) makes a buffer
of the given dimensions. -/
def bitmap_create (w h : Int) : bitmap := ⟨w, h, List.replicate (w * h).toNat 0⟩

/-- Modelled from the spec: `bitmap_reset` (not in the sources) fills the
buffer with one colour. -/
def bitmap_reset (m : bitmap) (color : Int) : bitmap :=
  { m with data := List.replicate m.data.length color }

/-- Modelled from the spec: `bitmap_width` (not in the sources). -/
def bitmap_width (m : bitmap) : Int := m.width

/-- Modelled from the spec: `bitmap_height` (not in the sources). -/
def bitmap_height (m : bitmap) : Int := m.height

/-- Modelled from the spec: `bitmap_set` (not in the sources) stores a colour at
column `x` of row `y`. -/
def bitmap_set (m : bitmap) (x y color : Int) : bitmap :=
  if 0 ≤ x ∧ x < m.width ∧ 0 ≤ y ∧ y < m.height then
    { m with data := m.data.set (y * m.width + x).toNat color }
  else m

/-- Modelled from the spec: `bitmap_get` (not in the sources) reads the colour
at column `x` of row `y`. -/
def bitmap_get (m : bitmap) (x y : Int) : Int :=
  m.data.getD (y * m.width + x).toNat 0

/-! ## Rendering -/

/-- Embedding of `struct thread_arguements`; the shared bitmap is passed
separately as the state the thread works on. -/
structure thread_arguements where
  thread_id : Int
  num_threads : Int
  xmin : Double
  xmax : Double
  ymin : Double
  ymax : Double
  itermax : Int
  deriving DecidableEq, Repr

/-- The values taken by the counter of `for (v = lo; v < hi; v++)`. -/
def int_range (lo hi : Int) : List Int :=
  (List.range (hi - lo).toNat).map (fun (k : Nat) => lo + Int.ofNat k)

/-- The rows `[start, end)` a thread works on, as computed at the top of
`compute_image`. -/
def row_band (height num_threads thread_id : Int) : Except Fault (Int × Int) := do
  let start := cmul (← cdiv height num_threads) thread_id
  if cadd thread_id 1 = num_threads then
    pure (start, height)
  else
    pure (start, cadd start (← cdiv height num_threads))

/-- The C expression `xmin + i*(xmax - xmin) / width` of `compute_image`. -/
def pixel_x (args : thread_arguements) (width i : Int) : Double :=
  Double.add args.xmin
    (Double.div (Double.mul (Double.of_int i) (Double.sub args.xmax args.xmin))
      (Double.of_int width))

/-- The C expression `ymin + j*(ymax - ymin) / height` of `compute_image`. -/
def pixel_y (args : thread_arguements) (height j : Int) : Double :=
  Double.add args.ymin
    (Double.div (Double.mul (Double.of_int j) (Double.sub args.ymax args.ymin))
      (Double.of_int height))

/-- One call `bitmap_set(bm, x, y, color)`. -/
structure pixel_write where
  x : Int
  y : Int
  color : Int
  deriving DecidableEq, Repr

/-- The inner loop of `compute_image` over the columns of row `j`: the
`bitmap_set` calls it makes, in order. -/
def column_loop (args : thread_arguements) (width height j : Int) :
    List Int → Except Fault (List pixel_write)
  | [] => pure []
  | i :: rest => do
    let iters ← iterations_at_point (pixel_x args width i) (pixel_y args height j) args.itermax
    let ws ← column_loop args width height j rest
    pure (⟨i, j, iters⟩ :: ws)

/-- The outer loop of `compute_image` over rows: the `bitmap_set` calls it
makes, in order. -/
def row_loop (args : thread_arguements) (width height : Int) :
    List Int → Except Fault (List pixel_write)
  | [] => pure []
  | j :: rest => do
    let ws ← column_loop args width height j (int_range 0 width)
    let ws2 ← row_loop args width height rest
    pure (ws ++ ws2)

/-- The sequence of `bitmap_set` calls made by one run of `compute_image` on a
bitmap of the given dimensions. -/
def compute_image_writes (args : thread_arguements) (width height : Int) :
    Except Fault (List pixel_write) := do
  let band ← row_band height args.num_threads args.thread_id
  row_loop args width height (int_range band.1 band.2)

/-- Carrying out a sequence of `bitmap_set` calls. -/
def apply_writes (m : bitmap) (ws : List pixel_write) : bitmap :=
  ws.foldl (fun b w => bitmap_set b w.x w.y w.color) m

/-- Embedding of `compute_image`: the bitmap after the thread has run. -/
def compute_image (args : thread_arguements) (bm : bitmap) : Except Fault bitmap := do
  let ws ← compute_image_writes args (bitmap_width bm) (bitmap_height bm)
  pure (apply_writes bm ws)

/-- The configuration values of `main`. -/
structure config where
  xcenter : Double
  ycenter : Double
  scale : Double
  image_width : Int
  image_height : Int
  max_interations : Int
  num_threads : Int
  deriving DecidableEq, Repr

/-- The argument record `main` fills in for thread `t`. -/
def thread_args (c : config) (t : Int) : thread_arguements :=
  { thread_id := t
    num_threads := c.num_threads
    xmin := Double.sub c.xcenter c.scale
    xmax := Double.add c.xcenter c.scale
    ymin := Double.sub c.ycenter c.scale
    ymax := Double.add c.ycenter c.scale
    itermax := c.max_interations }

/-- The threads started by `main`, run to completion one after another in the
order given by `schedule`. -/
def run_threads (c : config) : List Int → bitmap → Except Fault bitmap
  | [], bm => pure bm
  | t :: rest, bm => do
    let bm2 ← compute_image (thread_args c t) bm
    run_threads c rest bm2

/-- The bitmap `main` hands to the threads: created, then filled with the
debugging colour. -/
def initial_bitmap (c : config) : bitmap :=
  bitmap_reset (bitmap_create c.image_width c.image_height) (MAKE_RGBA 0 0 255 0)

/-- The rendering part of `main`: the bitmap after all threads were joined. -/
def render (c : config) (schedule : List Int) : Except Fault bitmap :=
  run_threads c schedule (initial_bitmap c)


/-! ## Closed forms used in the statements -/

/-- The thread whose band holds row `j`. -/
def band_owner (h n j : Int) : Int :=
  if h / n = 0 then n - 1 else min (j / (h / n)) (n - 1)

/-- The colour `compute_image` computes for pixel `(i, j)`, with `0` standing
in when `iterations_at_point` stops with a fault. -/
def pixel_color (args : thread_arguements) (width height i j : Int) : Int :=
  match iterations_at_point (pixel_x args width i) (pixel_y args height j) args.itermax with
  | Except.ok v => v
  | Except.error _ => 0

/-- The `bitmap_set` calls for the rows `[s, e)`, row by row and column by column. -/
def band_writes (args : thread_arguements) (width height s e : Int) : List pixel_write :=
  (int_range s e).flatMap fun j =>
    (int_range 0 width).map fun i => ⟨i, j, pixel_color args width height i j⟩

/-- The pixel a `bitmap_set` call addresses. -/
def pixel_write.position (w : pixel_write) : Int × Int := (w.x, w.y)

/-- How many of the `bitmap_set` calls in `ws` address pixel `(i, j)`. -/
def write_count (ws : List pixel_write) (i j : Int) : Nat :=
  ws.countP fun w => decide (w.x = i ∧ w.y = j)

/-- The buffer has positive dimensions and one cell per pixel. -/
def bitmap.well_formed (m : bitmap) : Prop :=
  0 < m.width ∧ 0 < m.height ∧ m.data.length = (m.width * m.height).toNat

/-- The `bitmap_set` calls of thread `t` of a run with configuration `c` on a
`width` by `height` bitmap. -/
def thread_writes (c : config) (width height t : Int) : List pixel_write :=
  band_writes (thread_args c t) width height (height / c.num_threads * t)
    (if t + 1 = c.num_threads then height
      else height / c.num_threads * t + height / c.num_threads)

/-- The end-to-end example of the specification: centre `(0, 0)`, scale `4`, a
ten by ten image, cap `100`, four threads. -/
def example_config : config :=
  { xcenter := Double.of_int 0
    ycenter := Double.of_int 0
    scale := Double.of_int 4
    image_width := 10
    image_height := 10
    max_interations := 100
    num_threads := 4 }

/-- The value is a number (finite or infinite) that is not negative in sign. -/
def Double.plus_signed : Double → Prop
  | Double.nan => False
  | Double.inf s => s = false
  | Double.fin s _ _ => s = false

/-- The `double` `0.0`. -/
def zero : Double := Double.of_int 0

/-- The `double` `2.5`. -/
def two_and_a_half : Double := Double.div (Double.of_int 5) (Double.of_int 2)

/-! ## Facts about `int` arithmetic -/

theorem wrap32_of_is_int {v : Int} (h : is_int v) : wrap32 v = v := by
  unfold is_int INT_MIN INT_MAX at h
  unfold wrap32
  omega

theorem cdiv_of_ne_zero (a : Int) {b : Int} (h : b ≠ 0) :
    cdiv a b = Except.ok (wrap32 (Int.tdiv a b)) := by
  simp [cdiv, h]

/-- Quotient of non-negative `int` values: no wrap-around, and it is the floor. -/
theorem cdiv_of_nonneg {a b : Int} (ha : 0 ≤ a) (ha2 : a ≤ INT_MAX) (hb : 0 < b) :
    cdiv a b = Except.ok (a / b) := by
  have hq0 : 0 ≤ a / b := Int.ediv_nonneg ha (le_of_lt hb)
  have hq1 : a / b ≤ a := Int.ediv_le_self b ha
  rw [cdiv_of_ne_zero a (ne_of_gt hb), Int.tdiv_eq_ediv ha (le_of_lt hb)]
  rw [wrap32_of_is_int]
  unfold is_int INT_MIN
  unfold INT_MAX at *
  omega

/-- A channel of the colour mapping when the product does not overflow. -/
theorem channel_of_small {c i m : Int} (hc0 : 0 ≤ c) (hc : c ≤ 255) (hi0 : 0 ≤ i)
    (him : i ≤ m) (hm : m ≤ 8421504) (hm0 : 0 < m) :
    channel c i m = Except.ok (c * i / m) := by
  have h1 : 0 ≤ c * i := mul_nonneg hc0 hi0
  have h2 : c * i ≤ 255 * 8421504 := mul_le_mul hc (le_trans him hm) hi0 (by norm_num)
  have h3 : is_int (c * i) := by
    unfold is_int INT_MIN INT_MAX; omega
  unfold channel cmul
  rw [wrap32_of_is_int h3]
  exact cdiv_of_nonneg h1 h3.2 hm0

theorem channel_bounds {c i m : Int} (hc0 : 0 ≤ c) (hi0 : 0 ≤ i) (him : i ≤ m) (hm0 : 0 < m) :
    0 ≤ c * i / m ∧ c * i / m ≤ c := by
  refine ⟨Int.ediv_nonneg (mul_nonneg hc0 hi0) (le_of_lt hm0), ?_⟩
  have h : c * i ≤ c * m := mul_le_mul_of_nonneg_left him hc0
  calc c * i / m ≤ c * m / m := Int.ediv_le_ediv hm0 h
    _ = c := Int.mul_ediv_cancel c (ne_of_gt hm0)

theorem channel_mono {c i i2 m : Int} (hc0 : 0 ≤ c) (hii : i ≤ i2) (hm0 : 0 < m) :
    c * i / m ≤ c * i2 / m :=
  Int.ediv_le_ediv hm0 (mul_le_mul_of_nonneg_left hii hc0)

theorem channel_zero (c : Int) {m : Int} (hm : m ≠ 0) : channel c 0 m = Except.ok 0 := by
  unfold channel cmul
  rw [cdiv_of_ne_zero _ hm]
  simp [wrap32]

theorem channel_error_iff (c i m : Int) :
    channel c i m = Except.error Fault.div_by_zero ↔ m = 0 := by
  unfold channel cdiv
  by_cases h : m = 0 <;> simp [h]

theorem iteration_to_color_of_ne_zero (i : Int) {m : Int} (hm : m ≠ 0) :
    iteration_to_color i m =
      Except.ok (wrap32 (Int.tdiv (MAKE_RGBA (wrap32 (Int.tdiv (cmul 55 i) m))
        (wrap32 (Int.tdiv (cmul 155 i) m)) (wrap32 (Int.tdiv (cmul 255 i) m)) 0) 5)) := by
  unfold iteration_to_color channel
  rw [cdiv_of_ne_zero _ hm, cdiv_of_ne_zero _ hm, cdiv_of_ne_zero _ hm]
  exact cdiv_of_ne_zero _ (by norm_num : (5 : Int) ≠ 0)

/-- The colour mapping written with the three channel values. -/
theorem iteration_to_color_of_channels {i m r g b : Int}
    (hr : channel 55 i m = Except.ok r) (hg : channel 155 i m = Except.ok g)
    (hb : channel 255 i m = Except.ok b) :
    iteration_to_color i m = cdiv (MAKE_RGBA r g b 0) 5 := by
  unfold iteration_to_color
  rw [hr, hg, hb]
  rfl

/-! ## Facts about the row bands -/

/-- The band of thread `t` in closed form, for dimensions that are positive `int` values. -/
theorem row_band_eq {h n t : Int} (hh : 1 ≤ h) (hh2 : h ≤ INT_MAX) (hn : 1 ≤ n)
    (hn2 : n ≤ INT_MAX) (ht0 : 0 ≤ t) (ht : t < n) :
    row_band h n t =
      Except.ok (h / n * t, if t + 1 = n then h else h / n * t + h / n) := by
  have hn0 : 0 < n := by omega
  have hq0 : 0 ≤ h / n := Int.ediv_nonneg (by omega) (le_of_lt hn0)
  have hqn : h / n * n ≤ h := Int.ediv_mul_le h (ne_of_gt hn0)
  have hqt : h / n * t ≤ h / n * n := mul_le_mul_of_nonneg_left (le_of_lt ht) hq0
  have hqt0 : 0 ≤ h / n * t := mul_nonneg hq0 ht0
  have hdiv : cdiv h n = Except.ok (h / n) := cdiv_of_nonneg (by omega) hh2 hn0
  have hstart : cmul (h / n) t = h / n * t := by
    unfold cmul
    apply wrap32_of_is_int
    unfold is_int INT_MIN
    unfold INT_MAX at *
    omega
  have hsucc : cadd t 1 = t + 1 := by
    unfold cadd
    apply wrap32_of_is_int
    unfold is_int INT_MIN
    unfold INT_MAX at *
    omega
  unfold row_band
  rw [hdiv]
  by_cases hlast : t + 1 = n
  · simp [hstart, hsucc, hlast, pure, Except.pure, bind, Except.bind]
  · have hq1 : h / n * t + h / n ≤ h / n * n := by
      have : h / n * (t + 1) ≤ h / n * n := mul_le_mul_of_nonneg_left (by omega) hq0
      linarith
    have hend : cadd (h / n * t) (h / n) = h / n * t + h / n := by
      unfold cadd
      apply wrap32_of_is_int
      unfold is_int INT_MIN
      unfold INT_MAX at *
      omega
    simp [hstart, hsucc, hlast, hend, pure, Except.pure, bind, Except.bind]

/-- Every band lies inside `[0, h]` and is not reversed. -/
theorem row_band_bounds {h n t : Int} (hh : 1 ≤ h) (hn : 1 ≤ n) (ht0 : 0 ≤ t) (ht : t < n) :
    0 ≤ h / n * t ∧ h / n * t ≤ (if t + 1 = n then h else h / n * t + h / n) ∧
      (if t + 1 = n then h else h / n * t + h / n) ≤ h := by
  have hn0 : 0 < n := by omega
  have hq0 : 0 ≤ h / n := Int.ediv_nonneg (by omega) (le_of_lt hn0)
  have hqn : h / n * n ≤ h := Int.ediv_mul_le h (ne_of_gt hn0)
  have hqt : h / n * (t + 1) ≤ h / n * n := mul_le_mul_of_nonneg_left (by omega) hq0
  have hqt0 : 0 ≤ h / n * t := mul_nonneg hq0 ht0
  have hexp : h / n * (t + 1) = h / n * t + h / n := by ring
  refine ⟨hqt0, ?_, ?_⟩
  · split_ifs <;> omega
  · split_ifs <;> omega

/-- Row `j` lies in the band of thread `t` exactly when `t` is `band_owner h n j`. -/
theorem mem_band_iff {h n t j : Int} (hh : 1 ≤ h) (hn : 1 ≤ n) (ht : t < n)
    (hj0 : 0 ≤ j) (hj : j < h) :
    (h / n * t ≤ j ∧ j < (if t + 1 = n then h else h / n * t + h / n)) ↔
      t = band_owner h n j := by
  have hn0 : 0 < n := by omega
  have hq0 : 0 ≤ h / n := Int.ediv_nonneg (by omega) (le_of_lt hn0)
  unfold band_owner
  by_cases hq : h / n = 0
  · rw [hq]
    simp only [zero_mul, add_zero, if_true]
    constructor
    · rintro ⟨-, h2⟩
      by_contra hne
      have : ¬ t + 1 = n := by omega
      rw [if_neg this] at h2
      omega
    · intro ht
      have : t + 1 = n := by omega
      rw [if_pos this]
      exact ⟨hj0, hj⟩
  · rw [if_neg hq]
    have hqpos : 0 < h / n := lt_of_le_of_ne hq0 (Ne.symm hq)
    have e1 : j / (h / n) * (h / n) ≤ j := Int.ediv_mul_le j hq
    have e2 : j < (j / (h / n) + 1) * (h / n) := Int.lt_ediv_add_one_mul_self j hqpos
    constructor
    · rintro ⟨h1, h2⟩
      by_cases hlast : t + 1 = n
      · have hle : n - 1 ≤ j / (h / n) := by
          rw [Int.le_ediv_iff_mul_le hqpos]
          have : t = n - 1 := by omega
          rw [← this, mul_comm]
          exact h1
        rw [min_eq_right hle]
        omega
      · rw [if_neg hlast] at h2
        have hle : t ≤ j / (h / n) := by
          rw [Int.le_ediv_iff_mul_le hqpos, mul_comm]
          exact h1
        have hlt : j / (h / n) < t + 1 := by
          rw [Int.ediv_lt_iff_lt_mul hqpos]
          have : (t + 1) * (h / n) = h / n * t + h / n := by ring
          rw [this]
          exact h2
        have : j / (h / n) = t := by omega
        rw [this, min_eq_left (by omega)]
    · intro hto
      by_cases hlast : t + 1 = n
      · rw [if_pos hlast]
        refine ⟨?_, hj⟩
        have hle : n - 1 ≤ j / (h / n) := by
          by_contra hc
          rw [min_eq_left (by omega)] at hto
          omega
        have : t ≤ j / (h / n) := by omega
        rw [Int.le_ediv_iff_mul_le hqpos, mul_comm] at this
        exact this
      · rw [if_neg hlast]
        have hmin : min (j / (h / n)) (n - 1) = j / (h / n) := by
          rcases min_choice (j / (h / n)) (n - 1) with hm | hm
          · exact hm
          · omega
        rw [hmin] at hto
        rw [hto]
        constructor
        · rw [mul_comm]; exact e1
        · have : (j / (h / n) + 1) * (h / n) = h / n * (j / (h / n)) + h / n := by ring
          rw [← this]
          exact e2

theorem band_owner_range {h n j : Int} (hh : 1 ≤ h) (hn : 1 ≤ n) (hj0 : 0 ≤ j) :
    0 ≤ band_owner h n j ∧ band_owner h n j < n := by
  have hn0 : 0 < n := by omega
  have hq0 : 0 ≤ h / n := Int.ediv_nonneg (by omega) (le_of_lt hn0)
  unfold band_owner
  split_ifs with hq
  · omega
  · have : 0 ≤ j / (h / n) := Int.ediv_nonneg hj0 hq0
    constructor
    · exact le_min this (by omega)
    · have := min_le_right (j / (h / n)) (n - 1)
      omega

/-! ## Facts about the escape-time loop -/

theorem loop_test_lt {x y : Double} {iter max : Int} (h : loop_test x y iter max = true) :
    iter < max := by
  unfold loop_test at h
  simp only [Bool.and_eq_true, decide_eq_true_eq] at h
  exact h.2

theorem loop_test_of_le (x y : Double) {iter max : Int} (h : max ≤ iter) :
    loop_test x y iter max = false := by
  unfold loop_test
  simp only [Bool.and_eq_false_imp, decide_eq_false_iff_not]
  intro _
  omega

theorem iterations_loop_of_test_false (x0 y0 : Double) (max : Int) (fuel : Nat)
    {x y : Double} {iter : Int} (h : loop_test x y iter max = false) :
    iterations_loop x0 y0 max fuel x y iter = Except.ok iter := by
  cases fuel <;> simp [iterations_loop, h]

theorem iterations_loop_of_test_true (x0 y0 : Double) (max : Int) (fuel : Nat)
    {x y : Double} {iter : Int} (h : loop_test x y iter max = true) :
    iterations_loop x0 y0 max (fuel + 1) x y iter =
      iterations_loop x0 y0 max fuel
        (Double.add (Double.sub (Double.mul x x) (Double.mul y y)) x0)
        (Double.add (Double.mul (Double.mul (Double.of_int 2) x) y) y0) (cadd iter 1) := by
  simp [iterations_loop, h]

theorem cadd_one {iter max : Int} (h0 : 0 ≤ iter) (hlt : iter < max) (hmax : max ≤ INT_MAX) :
    cadd iter 1 = iter + 1 := by
  unfold cadd
  apply wrap32_of_is_int
  unfold is_int INT_MIN
  unfold INT_MAX at *
  omega

/-- The loop ends: from the count `iter` it reaches a count `k` between `iter`
and the cap (or stays at `iter` when that is already past the cap), and `k - iter`
passes through the body are enough fuel for it. -/
theorem iterations_loop_spec (x0 y0 : Double) (max : Int) (hmax : max ≤ INT_MAX) :
    ∀ (d : Nat) (x y : Double) (iter : Int), 0 ≤ iter → (max - iter).toNat ≤ d →
      ∃ k, iter ≤ k ∧ (k ≤ max ∨ k = iter) ∧
        (loop_test x y iter max = true → iter < k) ∧
        ∀ fuel, (k - iter).toNat ≤ fuel →
          iterations_loop x0 y0 max fuel x y iter = Except.ok k := by
  intro d
  induction d with
  | zero =>
    intro x y iter _ hd
    have hf := loop_test_of_le x y (show max ≤ iter by omega)
    refine ⟨iter, le_refl _, Or.inr rfl, ?_, fun fuel _ => ?_⟩
    · rw [hf]
      intro h
      cases h
    · exact iterations_loop_of_test_false x0 y0 max fuel hf
  | succ d ih =>
    intro x y iter h0 hd
    by_cases ht : loop_test x y iter max = true
    · have hlt := loop_test_lt ht
      obtain ⟨k, hk1, hk2, -, hk3⟩ := ih
        (Double.add (Double.sub (Double.mul x x) (Double.mul y y)) x0)
        (Double.add (Double.mul (Double.mul (Double.of_int 2) x) y) y0)
        (iter + 1) (by omega) (by omega)
      refine ⟨k, by omega, Or.inl (by omega), fun _ => by omega, fun fuel hfuel => ?_⟩
      obtain ⟨f, rfl⟩ : ∃ f, fuel = f + 1 := ⟨fuel - 1, by omega⟩
      rw [iterations_loop_of_test_true x0 y0 max f ht, cadd_one h0 hlt hmax]
      exact hk3 f (by omega)
    · have hf : loop_test x y iter max = false := by
        simpa using ht
      refine ⟨iter, le_refl _, Or.inr rfl, ?_, fun fuel _ => ?_⟩
      · rw [hf]
        intro h
        cases h
      · exact iterations_loop_of_test_false x0 y0 max fuel hf

/-- The loop of `iterations_at_point` always ends when the cap is an `int`. -/
theorem iteration_count_ok (x y : Double) {max : Int} (hmax : max ≤ INT_MAX) :
    ∃ k, iteration_count x y max = Except.ok k ∧ 0 ≤ k ∧ (k ≤ max ∨ k = 0) ∧
      (loop_test x y 0 max = true → 0 < k) ∧
      ∀ fuel, k.toNat ≤ fuel → iterations_loop x y max fuel x y 0 = Except.ok k := by
  obtain ⟨k, hk1, hk2, hk3, hk4⟩ :=
    iterations_loop_spec x y max hmax max.toNat x y 0 (le_refl _) (by simp)
  refine ⟨k, ?_, hk1, hk2, hk3, fun fuel hf => hk4 fuel (by simpa using hf)⟩
  unfold iteration_count
  exact hk4 _ (by omega)

/-- `iterations_at_point` returns a colour for every cap that is a non-zero `int`. -/
theorem iterations_at_point_ok (x y : Double) {max : Int} (hmax : max ≤ INT_MAX)
    (hne : max ≠ 0) : ∃ v, iterations_at_point x y max = Except.ok v := by
  obtain ⟨k, hk, -⟩ := iteration_count_ok x y hmax
  obtain ⟨v, hv⟩ : ∃ v, iteration_to_color k max = Except.ok v :=
    ⟨_, iteration_to_color_of_ne_zero k hne⟩
  refine ⟨v, ?_⟩
  unfold iterations_at_point
  rw [hk]
  exact hv

/-! ## Facts about `double` arithmetic -/

theorem Double.inf_or_fin (s : Bool) (c : Prop) [Decidable c] (m : Nat) (E : Int) :
    (if c then Double.inf s else Double.fin s m E) = Double.inf s ∨
      ∃ m2 E2, (if c then Double.inf s else Double.fin s m E) = Double.fin s m2 E2 := by
  by_cases h : c
  · rw [if_pos h]
    exact Or.inl rfl
  · rw [if_neg h]
    exact Or.inr ⟨_, _, rfl⟩

theorem Double.round_nearest_even_cases (s : Bool) (num den : Nat) (e : Int) :
    Double.round_nearest_even s num den e = Double.inf s ∨
      ∃ m E, Double.round_nearest_even s num den e = Double.fin s m E := by
  unfold Double.round_nearest_even
  by_cases h0 : num = 0
  · rw [if_pos h0]
    exact Or.inr ⟨_, _, rfl⟩
  · rw [if_neg h0]
    exact Double.inf_or_fin s _ _ _

theorem Double.mul_self_plus_signed {x : Double} (hx : x.is_nan = false) :
    (Double.mul x x).plus_signed := by
  cases x with
  | nan => cases hx
  | inf s =>
    show xor s s = false
    simp
  | fin s m e =>
    show (Double.round_nearest_even (xor s s) (m * m) 1 (e + e)).plus_signed
    rcases Double.round_nearest_even_cases (xor s s) (m * m) 1 (e + e) with h | ⟨m2, E, h⟩
    · rw [h]
      show xor s s = false
      simp
    · rw [h]
      show xor s s = false
      simp

theorem Double.add_plus_signed {a b : Double} (ha : a.plus_signed) (hb : b.plus_signed) :
    (Double.add a b).plus_signed := by
  cases a with
  | nan => cases ha
  | inf s =>
    cases b with
    | nan => cases hb
    | inf t =>
      have hs : s = false := ha
      have ht : t = false := hb
      subst hs ht
      exact rfl
    | fin t m e => exact ha
  | fin s m e =>
    cases b with
    | nan => cases hb
    | inf t => exact hb
    | fin t m2 e2 =>
      have hs : s = false := ha
      have ht : t = false := hb
      subst hs ht
      unfold Double.add
      simp only
      split_ifs with hv
      · exact rfl
      · have hnn : ¬ (Double.signed false (m * 2 ^ (e - min e e2).toNat) +
            Double.signed false (m2 * 2 ^ (e2 - min e e2).toNat) < 0) := by
          unfold Double.signed
          simp only [Bool.false_eq_true, if_false]
          have h1 : (0 : Int) ≤ ((m * 2 ^ (e - min e e2).toNat : Nat) : Int) :=
            Int.ofNat_nonneg _
          have h2 : (0 : Int) ≤ ((m2 * 2 ^ (e2 - min e e2).toNat : Nat) : Int) :=
            Int.ofNat_nonneg _
          omega
        rw [decide_eq_false hnn]
        rcases Double.round_nearest_even_cases false
          (Double.signed false (m * 2 ^ (e - min e e2).toNat) +
            Double.signed false (m2 * 2 ^ (e2 - min e e2).toNat)).natAbs 1 (min e e2)
          with h | ⟨m3, E, h⟩
        · rw [h]; exact rfl
        · rw [h]; exact rfl

/-- On numbers, `a <= b` is false exactly when `b < a`. -/
theorem Double.le_false_iff_lt {a b : Double} (ha : a.is_nan = false) (hb : b.is_nan = false) :
    Double.le a b = false ↔ Double.lt b a = true := by
  cases a with
  | nan => cases ha
  | inf s =>
    cases b with
    | nan => cases hb
    | inf t => cases s <;> cases t <;> decide
    | fin t m e => cases s <;> simp [Double.le, Double.lt]
  | fin s m e =>
    cases b with
    | nan => cases hb
    | inf t => cases t <;> simp [Double.le, Double.lt]
    | fin t m2 e2 =>
      unfold Double.le Double.lt
      simp only [decide_eq_false_iff_not, decide_eq_true_eq, not_le]
      rw [min_comm e2 e]

theorem Double.is_nan_of_plus_signed {a : Double} (h : a.plus_signed) : a.is_nan = false := by
  cases a with
  | nan => cases h
  | inf s => rfl
  | fin s m e => rfl

/-- The squared magnitude tested by the loop is a number whenever `x` and `y` are. -/
theorem Double.norm_sq_is_number {x y : Double} (hx : x.is_nan = false)
    (hy : y.is_nan = false) :
    (norm_sq x y).is_nan = false :=
  Double.is_nan_of_plus_signed
    (Double.add_plus_signed (Double.mul_self_plus_signed hx) (Double.mul_self_plus_signed hy))

/-! ## Facts about the loops of `compute_image` -/

theorem mem_int_range {lo hi v : Int} : v ∈ int_range lo hi ↔ lo ≤ v ∧ v < hi := by
  unfold int_range
  simp only [List.mem_map, List.mem_range]
  constructor
  · rintro ⟨k, hk, rfl⟩
    simp only [Int.ofNat_eq_coe]
    omega
  · rintro ⟨h1, h2⟩
    refine ⟨(v - lo).toNat, by omega, ?_⟩
    simp only [Int.ofNat_eq_coe]
    omega

theorem int_range_nodup (lo hi : Int) : (int_range lo hi).Nodup := by
  unfold int_range
  apply List.Nodup.map _ (List.nodup_range _)
  intro a b hab
  have : lo + Int.ofNat a = lo + Int.ofNat b := hab
  simp only [Int.ofNat_eq_coe] at this
  omega

theorem int_range_length (lo hi : Int) : (int_range lo hi).length = (hi - lo).toNat := by
  simp [int_range]

theorem pixel_color_spec (args : thread_arguements) (width height i j : Int)
    (hmax : args.itermax ≤ INT_MAX) (hne : args.itermax ≠ 0) :
    iterations_at_point (pixel_x args width i) (pixel_y args height j) args.itermax =
      Except.ok (pixel_color args width height i j) := by
  obtain ⟨v, hv⟩ := iterations_at_point_ok (pixel_x args width i) (pixel_y args height j)
    hmax hne
  unfold pixel_color
  rw [hv]

theorem column_loop_eq (args : thread_arguements) (width height j : Int)
    (hmax : args.itermax ≤ INT_MAX) (hne : args.itermax ≠ 0) (cols : List Int) :
    column_loop args width height j cols =
      Except.ok (cols.map fun i => ⟨i, j, pixel_color args width height i j⟩) := by
  induction cols with
  | nil => rfl
  | cons i rest ih =>
    unfold column_loop
    rw [pixel_color_spec args width height i j hmax hne, ih]
    rfl

theorem row_loop_eq (args : thread_arguements) (width height : Int)
    (hmax : args.itermax ≤ INT_MAX) (hne : args.itermax ≠ 0) (rows : List Int) :
    row_loop args width height rows =
      Except.ok (rows.flatMap fun j =>
        (int_range 0 width).map fun i => ⟨i, j, pixel_color args width height i j⟩) := by
  induction rows with
  | nil => rfl
  | cons j rest ih =>
    unfold row_loop
    rw [column_loop_eq args width height j hmax hne, ih]
    rfl

/-- The `bitmap_set` calls of one thread in closed form. -/
theorem compute_image_writes_eq (args : thread_arguements) (width height : Int)
    (hh : 1 ≤ height) (hh2 : height ≤ INT_MAX) (hn : 1 ≤ args.num_threads)
    (hn2 : args.num_threads ≤ INT_MAX) (ht0 : 0 ≤ args.thread_id)
    (ht : args.thread_id < args.num_threads)
    (hmax : args.itermax ≤ INT_MAX) (hne : args.itermax ≠ 0) :
    compute_image_writes args width height =
      Except.ok (band_writes args width height
        (height / args.num_threads * args.thread_id)
        (if args.thread_id + 1 = args.num_threads then height
          else height / args.num_threads * args.thread_id + height / args.num_threads)) := by
  unfold compute_image_writes
  rw [row_band_eq hh hh2 hn hn2 ht0 ht]
  exact row_loop_eq args width height hmax hne _

theorem mem_band_writes {args : thread_arguements} {width height s e : Int}
    {w : pixel_write} :
    w ∈ band_writes args width height s e ↔
      (s ≤ w.y ∧ w.y < e) ∧ (0 ≤ w.x ∧ w.x < width) ∧
        w.color = pixel_color args width height w.x w.y := by
  unfold band_writes
  simp only [List.mem_flatMap, List.mem_map, mem_int_range]
  constructor
  · rintro ⟨j, hj, i, hi, rfl⟩
    exact ⟨hj, hi, rfl⟩
  · rintro ⟨hj, hi, hc⟩
    refine ⟨w.y, hj, w.x, hi, ?_⟩
    cases w
    simp only at hc
    rw [hc]

theorem band_writes_positions (args : thread_arguements) (width height s e : Int) :
    (band_writes args width height s e).map pixel_write.position =
      (int_range s e).flatMap fun j => (int_range 0 width).map fun i => (i, j) := by
  unfold band_writes
  rw [List.map_flatMap]
  congr 1
  funext j
  rw [List.map_map]
  rfl

theorem mem_band_positions {args : thread_arguements} {width height s e i j : Int} :
    (i, j) ∈ (band_writes args width height s e).map pixel_write.position ↔
      (s ≤ j ∧ j < e) ∧ (0 ≤ i ∧ i < width) := by
  rw [band_writes_positions]
  simp only [List.mem_flatMap, List.mem_map, mem_int_range, Prod.mk.injEq]
  constructor
  · rintro ⟨j2, hj, i2, hi, rfl, rfl⟩
    exact ⟨hj, hi⟩
  · rintro ⟨hj, hi⟩
    exact ⟨j, hj, i, hi, rfl, rfl⟩

theorem band_positions_nodup (args : thread_arguements) (width height s e : Int) :
    ((band_writes args width height s e).map pixel_write.position).Nodup := by
  rw [band_writes_positions, List.nodup_flatMap]
  constructor
  · intro j _
    apply List.Nodup.map _ (int_range_nodup 0 width)
    intro a b hab
    exact (Prod.mk.inj hab).1
  · apply List.Pairwise.imp _ (int_range_nodup s e)
    intro a b hab
    show List.Disjoint _ _
    intro p hp1 hp2
    simp only [List.mem_map] at hp1 hp2
    obtain ⟨_, _, rfl⟩ := hp1
    obtain ⟨_, _, h2⟩ := hp2
    exact hab (Prod.mk.inj h2).2.symm

theorem write_count_eq_count (ws : List pixel_write) (i j : Int) :
    write_count ws i j =
      @List.count _ instBEqOfDecidableEq (i, j) (ws.map pixel_write.position) := by
  unfold write_count List.count
  rw [List.countP_map]
  congr 1
  funext w
  show decide (w.x = i ∧ w.y = j) = decide ((w.x, w.y) = (i, j))
  simp only [Prod.mk.injEq]

/-- How often a band's `bitmap_set` calls address pixel `(i, j)`. -/
theorem band_writes_count (args : thread_arguements) (width height s e i j : Int) :
    write_count (band_writes args width height s e) i j =
      if (s ≤ j ∧ j < e) ∧ (0 ≤ i ∧ i < width) then 1 else 0 := by
  split_ifs with h
  · rw [write_count_eq_count]
    exact List.count_eq_one_of_mem (band_positions_nodup args width height s e)
      (mem_band_positions.mpr h)
  · unfold write_count
    rw [List.countP_eq_zero]
    intro w hw hp
    simp only [decide_eq_true_eq] at hp
    obtain ⟨hy, hx, -⟩ := mem_band_writes.mp hw
    rw [hp.1] at hx
    rw [hp.2] at hy
    exact h ⟨hy, hx⟩

/-! ## Facts about the bitmap -/

theorem index_lt {w h i j : Int} (hi0 : 0 ≤ i) (hi : i < w) (hj0 : 0 ≤ j) (hj : j < h) :
    (j * w + i).toNat < (w * h).toNat := by
  have h1 : (j + 1) * w ≤ h * w := mul_le_mul_of_nonneg_right (by omega) (by omega)
  have h2 : 0 ≤ j * w := mul_nonneg hj0 (by omega)
  have h3 : (j + 1) * w = j * w + w := by ring
  have h4 : h * w = w * h := mul_comm h w
  omega

theorem index_inj {w x y i j : Int} (hx0 : 0 ≤ x) (hx : x < w) (hy0 : 0 ≤ y)
    (hi0 : 0 ≤ i) (hi : i < w) (hj0 : 0 ≤ j)
    (he : (y * w + x).toNat = (j * w + i).toNat) : x = i ∧ y = j := by
  have h2 : 0 ≤ j * w := mul_nonneg hj0 (by omega)
  have h3 : 0 ≤ y * w := mul_nonneg hy0 (by omega)
  have he2 : y * w + x = j * w + i := by omega
  have hyj : y = j := by
    rcases lt_trichotomy y j with hlt | heq | hgt
    · have : (y + 1) * w ≤ j * w := mul_le_mul_of_nonneg_right (by omega) (by omega)
      have h5 : (y + 1) * w = y * w + w := by ring
      omega
    · exact heq
    · have : (j + 1) * w ≤ y * w := mul_le_mul_of_nonneg_right (by omega) (by omega)
      have h5 : (j + 1) * w = j * w + w := by ring
      omega
  subst hyj
  exact ⟨by omega, rfl⟩

theorem bitmap_set_width (m : bitmap) (x y c : Int) : (bitmap_set m x y c).width = m.width := by
  unfold bitmap_set
  split_ifs <;> rfl

theorem bitmap_set_height (m : bitmap) (x y c : Int) :
    (bitmap_set m x y c).height = m.height := by
  unfold bitmap_set
  split_ifs <;> rfl

theorem bitmap_set_length (m : bitmap) (x y c : Int) :
    (bitmap_set m x y c).data.length = m.data.length := by
  unfold bitmap_set
  split_ifs
  · simp
  · rfl

theorem bitmap_set_well_formed {m : bitmap} (hm : m.well_formed) (x y c : Int) :
    (bitmap_set m x y c).well_formed := by
  unfold bitmap.well_formed at *
  rw [bitmap_set_width, bitmap_set_height, bitmap_set_length]
  exact hm

/-- Reading a pixel after one `bitmap_set`. -/
theorem bitmap_get_set {m : bitmap} (hm : m.well_formed) (x y c : Int) {i j : Int}
    (hi0 : 0 ≤ i) (hi : i < m.width) (hj0 : 0 ≤ j) (hj : j < m.height) :
    bitmap_get (bitmap_set m x y c) i j = if x = i ∧ y = j then c else bitmap_get m i j := by
  unfold bitmap_set
  by_cases hg : 0 ≤ x ∧ x < m.width ∧ 0 ≤ y ∧ y < m.height
  · rw [if_pos hg]
    unfold bitmap_get
    simp only [List.getD_eq_getElem?_getD, List.getElem?_set]
    by_cases hxy : x = i ∧ y = j
    · obtain ⟨rfl, rfl⟩ := hxy
      have hlt : (y * m.width + x).toNat < m.data.length := by
        rw [hm.2.2]
        exact index_lt hi0 hi hj0 hj
      simp [hlt]
    · have hne : (y * m.width + x).toNat ≠ (j * m.width + i).toNat := fun he =>
        hxy (index_inj hg.1 hg.2.1 hg.2.2.1 hi0 hi hj0 he)
      rw [if_neg hne, if_neg hxy]
  · rw [if_neg hg]
    have hxy : ¬ (x = i ∧ y = j) := by
      rintro ⟨rfl, rfl⟩
      exact hg ⟨hi0, hi, hj0, hj⟩
    rw [if_neg hxy]

theorem apply_writes_cons (m : bitmap) (w : pixel_write) (ws : List pixel_write) :
    apply_writes m (w :: ws) = apply_writes (bitmap_set m w.x w.y w.color) ws := rfl

theorem apply_writes_append (m : bitmap) (ws ws2 : List pixel_write) :
    apply_writes m (ws ++ ws2) = apply_writes (apply_writes m ws) ws2 := by
  unfold apply_writes
  exact List.foldl_append _ _ _ _

theorem apply_writes_dims (ws : List pixel_write) :
    ∀ m : bitmap, (apply_writes m ws).width = m.width ∧
      (apply_writes m ws).height = m.height ∧
      (apply_writes m ws).data.length = m.data.length := by
  induction ws with
  | nil => intro m; exact ⟨rfl, rfl, rfl⟩
  | cons w ws ih =>
    intro m
    rw [apply_writes_cons]
    obtain ⟨h1, h2, h3⟩ := ih (bitmap_set m w.x w.y w.color)
    rw [h1, h2, h3, bitmap_set_width, bitmap_set_height, bitmap_set_length]
    exact ⟨rfl, rfl, rfl⟩

theorem apply_writes_well_formed {m : bitmap} (hm : m.well_formed) (ws : List pixel_write) :
    (apply_writes m ws).well_formed := by
  obtain ⟨h1, h2, h3⟩ := apply_writes_dims ws m
  unfold bitmap.well_formed at *
  rw [h1, h2, h3]
  exact hm

/-- Reading a pixel after a sequence of `bitmap_set` calls that all store the
colour `f x y` at `(x, y)`: the pixel holds `f i j` if some call addressed it
and its old colour otherwise. -/
theorem apply_writes_get (f : Int → Int → Int) (ws : List pixel_write) :
    ∀ (m : bitmap), m.well_formed → (∀ w ∈ ws, w.color = f w.x w.y) →
      ∀ i j, 0 ≤ i → i < m.width → 0 ≤ j → j < m.height →
        bitmap_get (apply_writes m ws) i j =
          if (∃ w ∈ ws, w.x = i ∧ w.y = j) then f i j else bitmap_get m i j := by
  induction ws with
  | nil =>
    intro m _ _ i j _ _ _ _
    simp [apply_writes]
  | cons w ws ih =>
    intro m hm hf i j hi0 hi hj0 hj
    rw [apply_writes_cons]
    have hm2 := bitmap_set_well_formed hm w.x w.y w.color
    rw [ih _ hm2 (fun v hv => hf v (List.mem_cons_of_mem _ hv)) i j hi0
      (by rw [bitmap_set_width]; exact hi) hj0 (by rw [bitmap_set_height]; exact hj)]
    rw [bitmap_get_set hm w.x w.y w.color hi0 hi hj0 hj]
    by_cases hrest : ∃ v ∈ ws, v.x = i ∧ v.y = j
    · obtain ⟨v, hv, hvp⟩ := hrest
      rw [if_pos ⟨v, hv, hvp⟩, if_pos ⟨v, List.mem_cons_of_mem _ hv, hvp⟩]
    · rw [if_neg hrest]
      by_cases hw : w.x = i ∧ w.y = j
      · rw [if_pos hw, if_pos ⟨w, List.mem_cons_self _ _, hw⟩, hf w (List.mem_cons_self _ _),
          hw.1, hw.2]
      · rw [if_neg hw, if_neg]
        rintro ⟨v, hv, hvp⟩
        rcases List.mem_cons.mp hv with rfl | hv2
        · exact hw hvp
        · exact hrest ⟨v, hv2, hvp⟩

/-- Two well-formed bitmaps of the same dimensions with the same colour at every pixel are equal. -/
theorem bitmap_ext {m m2 : bitmap} (hm : m.well_formed) (hm2 : m2.well_formed)
    (hw : m.width = m2.width) (hh : m.height = m2.height)
    (hp : ∀ i j, 0 ≤ i → i < m.width → 0 ≤ j → j < m.height →
      bitmap_get m i j = bitmap_get m2 i j) : m = m2 := by
  obtain ⟨w, h, d⟩ := m
  obtain ⟨w2, h2, d2⟩ := m2
  simp only at hw hh
  subst hw hh
  obtain ⟨hw0, hh0, hl⟩ := hm
  obtain ⟨-, -, hl2⟩ := hm2
  simp only at hw0 hh0 hl hl2 hp
  congr 1
  apply List.ext_getElem (by rw [hl, hl2])
  intro k hk hk2
  have hkl : (k : Int) < w * h := by
    rw [hl] at hk
    omega
  have hdm : w * ((k : Int) / w) + (k : Int) % w = k := Int.ediv_add_emod k w
  have hq0 : 0 ≤ (k : Int) / w := Int.ediv_nonneg (by omega) (le_of_lt hw0)
  have hr0 : 0 ≤ (k : Int) % w := Int.emod_nonneg _ (ne_of_gt hw0)
  have hr1 : (k : Int) % w < w := Int.emod_lt_of_pos _ hw0
  have hq1 : (k : Int) / w < h := by
    rw [Int.ediv_lt_iff_lt_mul hw0, mul_comm]
    exact hkl
  have hidx : ((k : Int) / w * w + (k : Int) % w).toNat = k := by
    have : (k : Int) / w * w = w * ((k : Int) / w) := mul_comm _ _
    omega
  have := hp ((k : Int) % w) ((k : Int) / w) hr0 hr1 hq0 hq1
  unfold bitmap_get at this
  simp only [hidx] at this
  rw [List.getD_eq_getElem _ _ hk, List.getD_eq_getElem _ _ hk2] at this
  exact this

theorem initial_bitmap_well_formed (c : config) (hw : 1 ≤ c.image_width)
    (hh : 1 ≤ c.image_height) :
    (initial_bitmap c).well_formed ∧ (initial_bitmap c).width = c.image_width ∧
      (initial_bitmap c).height = c.image_height := by
  refine ⟨⟨?_, ?_, ?_⟩, rfl, rfl⟩
  · show 0 < c.image_width
    omega
  · show 0 < c.image_height
    omega
  · simp [initial_bitmap, bitmap_reset, bitmap_create]

/-! ## Facts about the threads -/

theorem thread_writes_spec (c : config) (width height t : Int) (hh : 1 ≤ height)
    (hh2 : height ≤ INT_MAX) (hn : 1 ≤ c.num_threads) (hn2 : c.num_threads ≤ INT_MAX)
    (hmax : c.max_interations ≤ INT_MAX) (hne : c.max_interations ≠ 0)
    (ht0 : 0 ≤ t) (ht : t < c.num_threads) :
    compute_image_writes (thread_args c t) width height =
      Except.ok (thread_writes c width height t) :=
  compute_image_writes_eq (thread_args c t) width height hh hh2 hn hn2 ht0 ht hmax hne

/-- Every `bitmap_set` call of every thread stores the colour of the pixel it addresses. -/
theorem thread_writes_color {c : config} {width height t : Int} {w : pixel_write}
    (hw : w ∈ thread_writes c width height t) :
    w.color = pixel_color (thread_args c 0) width height w.x w.y :=
  (mem_band_writes.mp hw).2.2

/-- Every pixel of the image is addressed by the thread that owns its row. -/
theorem thread_writes_cover (c : config) {width height i j : Int} (hh : 1 ≤ height)
    (hn : 1 ≤ c.num_threads) (hi0 : 0 ≤ i) (hi : i < width) (hj0 : 0 ≤ j) (hj : j < height) :
    ∃ w ∈ thread_writes c width height (band_owner height c.num_threads j),
      w.x = i ∧ w.y = j := by
  have hown := band_owner_range (h := height) (n := c.num_threads) (j := j) hh hn hj0
  refine ⟨⟨i, j, pixel_color (thread_args c (band_owner height c.num_threads j))
    width height i j⟩, ?_, rfl, rfl⟩
  unfold thread_writes
  rw [mem_band_writes]
  exact ⟨(mem_band_iff hh hn hown.2 hj0 hj).mpr rfl, ⟨hi0, hi⟩, rfl⟩

/-- Running threads one after another carries out their `bitmap_set` calls in sequence. -/
theorem run_threads_eq (c : config) (hh : 1 ≤ c.image_height)
    (hh2 : c.image_height ≤ INT_MAX) (hn : 1 ≤ c.num_threads)
    (hn2 : c.num_threads ≤ INT_MAX) (hmax : c.max_interations ≤ INT_MAX)
    (hne : c.max_interations ≠ 0) (schedule : List Int) :
    (∀ t ∈ schedule, 0 ≤ t ∧ t < c.num_threads) →
    ∀ bm : bitmap, bm.width = c.image_width → bm.height = c.image_height →
      run_threads c schedule bm =
        Except.ok (apply_writes bm
          (schedule.flatMap (thread_writes c c.image_width c.image_height))) := by
  induction schedule with
  | nil =>
    intro _ bm _ _
    rfl
  | cons t rest ih =>
    intro hts bm hbw hbh
    have ht := hts t (List.mem_cons_self _ _)
    have hci : compute_image (thread_args c t) bm =
        Except.ok (apply_writes bm (thread_writes c c.image_width c.image_height t)) := by
      unfold compute_image bitmap_width bitmap_height
      rw [hbw, hbh, thread_writes_spec c _ _ t hh hh2 hn hn2 hmax hne ht.1 ht.2]
      rfl
    have hd := apply_writes_dims (thread_writes c c.image_width c.image_height t) bm
    unfold run_threads
    rw [hci]
    show run_threads c rest _ = _
    rw [ih (fun u hu => hts u (List.mem_cons_of_mem _ hu)) _ (by rw [hd.1, hbw])
      (by rw [hd.2.1, hbh])]
    rw [List.flatMap_cons, apply_writes_append]

/-- After any sequence of the threads' `bitmap_set` calls that contains the calls
of every thread, each pixel holds the colour computed for it. -/
theorem covered_pixels (c : config) (hw : 1 ≤ c.image_width) (hh : 1 ≤ c.image_height)
    (hn : 1 ≤ c.num_threads) (ws : List pixel_write)
    (hsub : ∀ w ∈ ws, ∃ t, w ∈ thread_writes c c.image_width c.image_height t)
    (hsup : ∀ t, 0 ≤ t → t < c.num_threads →
      ∀ w ∈ thread_writes c c.image_width c.image_height t, w ∈ ws)
    (i j : Int) (hi0 : 0 ≤ i) (hi : i < c.image_width) (hj0 : 0 ≤ j)
    (hj : j < c.image_height) :
    bitmap_get (apply_writes (initial_bitmap c) ws) i j =
      pixel_color (thread_args c 0) c.image_width c.image_height i j := by
  obtain ⟨hwf, hiw, hih⟩ := initial_bitmap_well_formed c hw hh
  rw [apply_writes_get (pixel_color (thread_args c 0) c.image_width c.image_height) ws _ hwf
    (fun w hw => by
      obtain ⟨t, ht⟩ := hsub w hw
      exact thread_writes_color ht)
    i j hi0 (by rw [hiw]; exact hi) hj0 (by rw [hih]; exact hj)]
  rw [if_pos]
  have hown := band_owner_range (h := c.image_height) (n := c.num_threads) (j := j) hh hn hj0
  obtain ⟨w, hwm, hwp⟩ := thread_writes_cover c hh hn hi0 hi hj0 hj
  exact ⟨w, hsup _ hown.1 hown.2 w hwm, hwp⟩

/-- The render with the threads run one after another in an order in which each
occurs: it ends, and each pixel holds the colour computed for it. -/
theorem render_eq (c : config) (hw : 1 ≤ c.image_width) (hh : 1 ≤ c.image_height)
    (hh2 : c.image_height ≤ INT_MAX) (hn : 1 ≤ c.num_threads)
    (hn2 : c.num_threads ≤ INT_MAX) (hmax : c.max_interations ≤ INT_MAX)
    (hne : c.max_interations ≠ 0) (schedule : List Int)
    (hs : ∀ t, t ∈ schedule ↔ 0 ≤ t ∧ t < c.num_threads) :
    ∃ bm, render c schedule = Except.ok bm ∧ bm.well_formed ∧
      bm.width = c.image_width ∧ bm.height = c.image_height ∧
      ∀ i j, 0 ≤ i → i < c.image_width → 0 ≤ j → j < c.image_height →
        bitmap_get bm i j = pixel_color (thread_args c 0) c.image_width c.image_height i j := by
  obtain ⟨hwf, hiw, hih⟩ := initial_bitmap_well_formed c hw hh
  have hrun := run_threads_eq c hh hh2 hn hn2 hmax hne schedule (fun t ht => (hs t).mp ht)
    (initial_bitmap c) hiw hih
  have hd := apply_writes_dims
    (schedule.flatMap (thread_writes c c.image_width c.image_height)) (initial_bitmap c)
  refine ⟨_, hrun, apply_writes_well_formed hwf _, by rw [hd.1, hiw], by rw [hd.2.1, hih], ?_⟩
  intro i j hi0 hi hj0 hj
  apply covered_pixels c hw hh hn _ _ _ i j hi0 hi hj0 hj
  · intro w hwm
    obtain ⟨t, -, ht⟩ := List.mem_flatMap.mp hwm
    exact ⟨t, ht⟩
  · intro t ht0 ht w hwm
    exact List.mem_flatMap.mpr ⟨t, (hs t).mpr ⟨ht0, ht⟩, hwm⟩

theorem mem_of_perm_int_range {schedule : List Int} {n : Int}
    (hs : schedule.Perm (int_range 0 n)) (t : Int) : t ∈ schedule ↔ 0 ≤ t ∧ t < n := by
  rw [hs.mem_iff, mem_int_range]

/-! ## Colour mapping: the claims -/

/-- C4 (as amended): for every cap `m` with `1 ≤ m`,
`iteration_to_color(0, m)` is `MAKE_RGBA(0,0,0,0) / 5`; and when moreover
`m ≤ 8421504`, so that `255 * m` fits in 32 bits, `iteration_to_color(m, m)` is
`MAKE_RGBA(55,155,255,0) / 5`. -/
theorem iteration_to_color_endpoints (m : Int) (h1 : 1 ≤ m) :
    iteration_to_color 0 m = cdiv (MAKE_RGBA 0 0 0 0) 5 ∧
      (m ≤ 8421504 → iteration_to_color m m = cdiv (MAKE_RGBA 55 155 255 0) 5) := by
  have hm0 : 0 < m := by omega
  have hne : m ≠ 0 := ne_of_gt hm0
  refine ⟨?_, fun hm => ?_⟩
  · exact iteration_to_color_of_channels (channel_zero 55 hne) (channel_zero 155 hne)
      (channel_zero 255 hne)
  · have key : ∀ c : Int, 0 ≤ c → c ≤ 255 → channel c m m = Except.ok c := by
      intro c hc0 hc
      rw [channel_of_small hc0 hc (le_of_lt hm0) (le_refl m) hm hm0,
        Int.mul_ediv_cancel c hne]
    exact iteration_to_color_of_channels (key 55 (by norm_num) (by norm_num))
      (key 155 (by norm_num) (by norm_num)) (key 255 (by norm_num) (by norm_num))

/-- Witness for C4: the cap `100`. -/
theorem iteration_to_color_endpoints_witness :
    iteration_to_color 0 100 = cdiv (MAKE_RGBA 0 0 0 0) 5 ∧
      ((100 : Int) ≤ 8421504 → iteration_to_color 100 100 = cdiv (MAKE_RGBA 55 155 255 0) 5) :=
  iteration_to_color_endpoints 100 (by decide)

/-- Counterexample to C4 as stated: at the cap `8421505` the product
`255 * 8421505` exceeds the 32-bit range, the blue channel becomes `-254`, and
`iteration_to_color(8421505, 8421505)` is `-13004`, not
`MAKE_RGBA(55,155,255,0) / 5 = 186594048`. -/
theorem iteration_to_color_endpoints_fails :
    (1 : Int) ≤ 8421505 ∧ (8421505 : Int) ≤ INT_MAX ∧
      channel 255 8421505 8421505 = Except.ok (-254) ∧
      iteration_to_color 8421505 8421505 = Except.ok (-13004) ∧
      cdiv (MAKE_RGBA 55 155 255 0) 5 = Except.ok 186594048 ∧
      iteration_to_color 8421505 8421505 ≠ cdiv (MAKE_RGBA 55 155 255 0) 5 := by
  decide

/-- C10: for `1 ≤ m ≤ 8421504` and `0 ≤ i ≤ i2 ≤ m` the three channels computed
by `iteration_to_color` are returned without overflow, lie in `[0,55]`,
`[0,155]` and `[0,255]`, and each channel for `i` is at most the same channel
for `i2`. -/
theorem channel_bounds_and_monotone (m i i2 : Int) (hm1 : 1 ≤ m) (hm : m ≤ 8421504)
    (hi0 : 0 ≤ i) (hii : i ≤ i2) (hi2 : i2 ≤ m) :
    ∃ r g b r2 g2 b2 : Int,
      channel 55 i m = Except.ok r ∧ channel 155 i m = Except.ok g ∧
      channel 255 i m = Except.ok b ∧
      channel 55 i2 m = Except.ok r2 ∧ channel 155 i2 m = Except.ok g2 ∧
      channel 255 i2 m = Except.ok b2 ∧
      iteration_to_color i m = cdiv (MAKE_RGBA r g b 0) 5 ∧
      iteration_to_color i2 m = cdiv (MAKE_RGBA r2 g2 b2 0) 5 ∧
      (0 ≤ r ∧ r ≤ 55) ∧ (0 ≤ g ∧ g ≤ 155) ∧ (0 ≤ b ∧ b ≤ 255) ∧
      (0 ≤ r2 ∧ r2 ≤ 55) ∧ (0 ≤ g2 ∧ g2 ≤ 155) ∧ (0 ≤ b2 ∧ b2 ≤ 255) ∧
      r ≤ r2 ∧ g ≤ g2 ∧ b ≤ b2 := by
  have hm0 : 0 < m := by omega
  have him : i ≤ m := le_trans hii hi2
  have hi20 : 0 ≤ i2 := le_trans hi0 hii
  have c1 := channel_of_small (c := 55) (by norm_num) (by norm_num) hi0 him hm hm0
  have c2 := channel_of_small (c := 155) (by norm_num) (by norm_num) hi0 him hm hm0
  have c3 := channel_of_small (c := 255) (by norm_num) (by norm_num) hi0 him hm hm0
  have d1 := channel_of_small (c := 55) (by norm_num) (by norm_num) hi20 hi2 hm hm0
  have d2 := channel_of_small (c := 155) (by norm_num) (by norm_num) hi20 hi2 hm hm0
  have d3 := channel_of_small (c := 255) (by norm_num) (by norm_num) hi20 hi2 hm hm0
  exact ⟨_, _, _, _, _, _, c1, c2, c3, d1, d2, d3,
    iteration_to_color_of_channels c1 c2 c3, iteration_to_color_of_channels d1 d2 d3,
    channel_bounds (by norm_num) hi0 him hm0, channel_bounds (by norm_num) hi0 him hm0,
    channel_bounds (by norm_num) hi0 him hm0, channel_bounds (by norm_num) hi20 hi2 hm0,
    channel_bounds (by norm_num) hi20 hi2 hm0, channel_bounds (by norm_num) hi20 hi2 hm0,
    channel_mono (by norm_num) hii hm0, channel_mono (by norm_num) hii hm0,
    channel_mono (by norm_num) hii hm0⟩

/-- Witness for C10: cap `100`, counts `30` and `70`. -/
theorem channel_bounds_and_monotone_witness :
    ∃ r g b r2 g2 b2 : Int,
      channel 55 30 100 = Except.ok r ∧ channel 155 30 100 = Except.ok g ∧
      channel 255 30 100 = Except.ok b ∧
      channel 55 70 100 = Except.ok r2 ∧ channel 155 70 100 = Except.ok g2 ∧
      channel 255 70 100 = Except.ok b2 ∧
      iteration_to_color 30 100 = cdiv (MAKE_RGBA r g b 0) 5 ∧
      iteration_to_color 70 100 = cdiv (MAKE_RGBA r2 g2 b2 0) 5 ∧
      (0 ≤ r ∧ r ≤ 55) ∧ (0 ≤ g ∧ g ≤ 155) ∧ (0 ≤ b ∧ b ≤ 255) ∧
      (0 ≤ r2 ∧ r2 ≤ 55) ∧ (0 ≤ g2 ∧ g2 ≤ 155) ∧ (0 ≤ b2 ∧ b2 ≤ 255) ∧
      r ≤ r2 ∧ g ≤ g2 ∧ b ≤ b2 :=
  channel_bounds_and_monotone 100 30 70 (by decide) (by decide) (by decide) (by decide)
    (by decide)

/-! ## Row bands: the claims -/

/-- C1: for a height `h ≥ 1` and a thread count `n ≥ 1` (both `int` values) the
bands computed by `compute_image` partition the rows: every row `j` of
`[0, h)` lies in the band of exactly one thread index of `[0, n)`, every band
lies inside `[0, h]`, and so every pixel `(i, j)` of the image is addressed by
exactly one `bitmap_set` call of exactly one thread (for any cap that lets the
threads run, that is any non-zero `int`). -/
theorem row_bands_partition (h n : Int) (hh : 1 ≤ h) (hh2 : h ≤ INT_MAX) (hn : 1 ≤ n)
    (hn2 : n ≤ INT_MAX) :
    (∀ j, 0 ≤ j → j < h →
      ∃! t, (0 ≤ t ∧ t < n) ∧ ∃ s e, row_band h n t = Except.ok (s, e) ∧ s ≤ j ∧ j < e) ∧
    (∀ t, 0 ≤ t → t < n →
      ∃ s e, row_band h n t = Except.ok (s, e) ∧ 0 ≤ s ∧ s ≤ e ∧ e ≤ h) ∧
    (∀ (a : thread_arguements) (w : Int), a.itermax ≤ INT_MAX →
      a.itermax ≠ 0 → ∀ i j, 0 ≤ i → i < w → 0 ≤ j → j < h →
      ∃ owner, (0 ≤ owner ∧ owner < n) ∧ ∀ t, 0 ≤ t → t < n →
        ∃ ws, compute_image_writes { a with thread_id := t, num_threads := n } w h = Except.ok ws ∧
          write_count ws i j = if t = owner then 1 else 0) := by
  refine ⟨fun j hj0 hj => ?_, fun t ht0 ht => ?_, ?_⟩
  · have hown := band_owner_range (h := h) (n := n) (j := j) hh hn hj0
    refine ⟨band_owner h n j, ⟨hown, _, _, row_band_eq hh hh2 hn hn2 hown.1 hown.2, ?_⟩, ?_⟩
    · exact (mem_band_iff hh hn hown.2 hj0 hj).mpr rfl
    · rintro t ⟨⟨ht0, ht⟩, s, e, hb, hs, he⟩
      rw [row_band_eq hh hh2 hn hn2 ht0 ht] at hb
      injection hb with hb
      injection hb with hb1 hb2
      subst hb1 hb2
      exact (mem_band_iff hh hn ht hj0 hj).mp ⟨hs, he⟩
  · obtain ⟨b1, b2, b3⟩ := row_band_bounds (h := h) (n := n) (t := t) hh hn ht0 ht
    exact ⟨_, _, row_band_eq hh hh2 hn hn2 ht0 ht, b1, b2, b3⟩
  · intro a w hmax hne i j hi0 hi hj0 hj
    have hown := band_owner_range (h := h) (n := n) (j := j) hh hn hj0
    refine ⟨band_owner h n j, hown, fun t ht0 ht => ?_⟩
    refine ⟨_, compute_image_writes_eq { a with thread_id := t, num_threads := n } w h hh hh2
      hn hn2 ht0 ht hmax hne, ?_⟩
    rw [band_writes_count]
    have hiff := mem_band_iff (t := t) hh hn ht hj0 hj
    by_cases hto : t = band_owner h n j
    · rw [if_pos hto, if_pos ⟨hiff.mpr hto, hi0, hi⟩]
    · rw [if_neg hto, if_neg]
      rintro ⟨hb, -⟩
      exact hto (hiff.mp hb)

/-- Witness for C1: ten rows and four threads. -/
theorem row_bands_partition_witness :
    (∀ j, 0 ≤ j → j < 10 →
      ∃! t, (0 ≤ t ∧ t < 4) ∧ ∃ s e, row_band 10 4 t = Except.ok (s, e) ∧ s ≤ j ∧ j < e) ∧
    (∀ t, 0 ≤ t → t < 4 →
      ∃ s e, row_band 10 4 t = Except.ok (s, e) ∧ 0 ≤ s ∧ s ≤ e ∧ e ≤ 10) ∧
    (∀ (a : thread_arguements) (w : Int), a.itermax ≤ INT_MAX →
      a.itermax ≠ 0 → ∀ i j, 0 ≤ i → i < w → 0 ≤ j → j < 10 →
      ∃ owner, (0 ≤ owner ∧ owner < 4) ∧ ∀ t, 0 ≤ t → t < 4 →
        ∃ ws, compute_image_writes { a with thread_id := t, num_threads := 4 } w 10 = Except.ok ws ∧
          write_count ws i j = if t = owner then 1 else 0) :=
  row_bands_partition 10 4 (by decide) (by decide) (by decide) (by decide)

/-- C8: for a height `h ≥ 1` and a thread count `n ≥ 1` (both `int` values),
every thread `t < n - 1` has the band `[q*t, q*t + q)` of exactly `q = ⌊h / n⌋`
rows, and the last thread `t = n - 1` has the band `[q*t, h)` of exactly
`q + h mod n` rows; when `n > h` every band but the last is the empty `[0, 0)`
and the last is `[0, h)`. -/
theorem remainder_rows_in_last_band (h n t : Int) (hh : 1 ≤ h) (hh2 : h ≤ INT_MAX)
    (hn : 1 ≤ n) (hn2 : n ≤ INT_MAX) (ht0 : 0 ≤ t) (ht : t < n) :
    (t < n - 1 → row_band h n t = Except.ok (h / n * t, h / n * t + h / n) ∧
      (int_range (h / n * t) (h / n * t + h / n)).length = (h / n).toNat) ∧
    (t = n - 1 → row_band h n t = Except.ok (h / n * t, h) ∧
      h - h / n * t = h / n + h % n ∧
      (int_range (h / n * t) h).length = (h / n + h % n).toNat) ∧
    (h < n → (t < n - 1 → row_band h n t = Except.ok (0, 0)) ∧
      (t = n - 1 → row_band h n t = Except.ok (0, h))) := by
  have hb := row_band_eq hh hh2 hn hn2 ht0 ht
  have hdm : n * (h / n) + h % n = h := Int.ediv_add_emod h n
  refine ⟨fun hlt => ?_, fun heq => ?_, fun hlt => ⟨fun hlt2 => ?_, fun heq => ?_⟩⟩
  · rw [hb, if_neg (by omega)]
    refine ⟨rfl, ?_⟩
    rw [int_range_length]
    congr 1
    ring
  · rw [hb, if_pos (by omega)]
    have hlen : h - h / n * t = h / n + h % n := by
      rw [heq]
      linarith
    refine ⟨rfl, hlen, ?_⟩
    rw [int_range_length, hlen]
  · have hq : h / n = 0 := Int.ediv_eq_zero_of_lt (by omega) hlt
    rw [hb, if_neg (by omega), hq]
    simp
  · have hq : h / n = 0 := Int.ediv_eq_zero_of_lt (by omega) hlt
    rw [hb, if_pos (by omega), hq]
    simp

/-- Witness for C8: ten rows, four threads, the last thread. -/
theorem remainder_rows_in_last_band_witness :
    ((3 : Int) < 4 - 1 → row_band 10 4 3 = Except.ok (10 / 4 * 3, 10 / 4 * 3 + 10 / 4) ∧
      (int_range (10 / 4 * 3) (10 / 4 * 3 + 10 / 4)).length = ((10 : Int) / 4).toNat) ∧
    ((3 : Int) = 4 - 1 → row_band 10 4 3 = Except.ok (10 / 4 * 3, 10) ∧
      (10 : Int) - 10 / 4 * 3 = 10 / 4 + 10 % 4 ∧
      (int_range (10 / 4 * 3) 10).length = ((10 : Int) / 4 + 10 % 4).toNat) ∧
    ((10 : Int) < 4 → ((3 : Int) < 4 - 1 → row_band 10 4 3 = Except.ok (0, 0)) ∧
      ((3 : Int) = 4 - 1 → row_band 10 4 3 = Except.ok (0, 10))) :=
  remainder_rows_in_last_band 10 4 3 (by decide) (by decide) (by decide) (by decide)
    (by decide) (by decide)

/-! ## Escape-time evaluation: the claims -/

/-- C6: for all `x`, `y` and every cap `max ≥ 0` (an `int`), the loop of
`iterations_at_point` ends after at most `max` passes through its body, and the
count `k` it ends with, which is the value handed to the colour mapping,
satisfies `0 ≤ k ≤ max`. -/
theorem iteration_count_bounded (x y : Double) (max : Int) (h0 : 0 ≤ max)
    (hmax : max ≤ INT_MAX) :
    ∃ k, iteration_count x y max = Except.ok k ∧ 0 ≤ k ∧ k ≤ max ∧
      (∀ fuel, k.toNat ≤ fuel → iterations_loop x y max fuel x y 0 = Except.ok k) ∧
      (∀ fuel, max.toNat ≤ fuel → iterations_loop x y max fuel x y 0 = Except.ok k) ∧
      iterations_at_point x y max = iteration_to_color k max := by
  obtain ⟨k, hk, hk0, hk1, -, hk2⟩ := iteration_count_ok x y hmax
  have hkm : k ≤ max := by omega
  refine ⟨k, hk, hk0, hkm, hk2, fun fuel hf => hk2 fuel (by omega), ?_⟩
  unfold iterations_at_point
  rw [hk]
  rfl

/-- Witness for C6: the point `(2.5, 2.5)` with the cap `100`. -/
theorem iteration_count_bounded_witness :
    ∃ k, iteration_count two_and_a_half two_and_a_half 100 = Except.ok k ∧ 0 ≤ k ∧ k ≤ 100 ∧
      (∀ fuel, k.toNat ≤ fuel →
        iterations_loop two_and_a_half two_and_a_half 100 fuel two_and_a_half two_and_a_half 0 =
          Except.ok k) ∧
      (∀ fuel, (100 : Int).toNat ≤ fuel →
        iterations_loop two_and_a_half two_and_a_half 100 fuel two_and_a_half two_and_a_half 0 =
          Except.ok k) ∧
      iterations_at_point two_and_a_half two_and_a_half 100 = iteration_to_color k 100 :=
  iteration_count_bounded two_and_a_half two_and_a_half 100 (by decide) (by decide)

set_option maxRecDepth 8000 in
set_option exponentiation.threshold 2048 in
/-- C9 (as amended): for every point `(x, y)` and cap `max` (an `int`) the count
reached by the loop of `iterations_at_point` is `0` exactly when `max ≤ 0` or
the test `x*x + y*y <= 4` is false; when `x` and `y` are numbers (not NaN) the
test is false exactly when `x*x + y*y > 4`. The point `(2.5, 2.5)` has the
count `0` for every cap, and the point `(2, 0)`, for which `x*x + y*y` is
exactly `4`, has a count of at least `1` whenever `max ≥ 1`. -/
theorem escape_test_closed_boundary (x y : Double) (max : Int) (hmax : max ≤ INT_MAX) :
    (iteration_count x y max = Except.ok 0 ↔
      max ≤ 0 ∨ Double.le (norm_sq x y) (Double.of_int 4) = false) ∧
    (x.is_nan = false → y.is_nan = false →
      (Double.le (norm_sq x y) (Double.of_int 4) = false ↔
        Double.lt (Double.of_int 4) (norm_sq x y) = true)) ∧
    iteration_count two_and_a_half two_and_a_half max = Except.ok 0 ∧
    norm_sq (Double.of_int 2) zero = Double.of_int 4 ∧
    (1 ≤ max → ∃ k, iteration_count (Double.of_int 2) zero max = Except.ok k ∧ 1 ≤ k) := by
  have key : ∀ u v : Double, (iteration_count u v max = Except.ok 0 ↔
      max ≤ 0 ∨ Double.le (norm_sq u v) (Double.of_int 4) = false) := by
    intro u v
    obtain ⟨k, hk, hk0, -, hk3, -⟩ := iteration_count_ok u v hmax
    constructor
    · intro hz
      by_contra hcon
      push_neg at hcon
      have ht : loop_test u v 0 max = true := by
        unfold loop_test
        have hle : Double.le (norm_sq u v) (Double.of_int 4) = true := by
          simpa using hcon.2
        rw [hle]
        simpa using hcon.1
      have hpos := hk3 ht
      rw [hk] at hz
      injection hz with hz
      omega
    · intro hor
      have hf : loop_test u v 0 max = false := by
        unfold loop_test
        rcases hor with hm | hl
        · have : ¬ (0 < max) := by omega
          simp [this]
        · rw [hl]
          rfl
      unfold iteration_count
      exact iterations_loop_of_test_false u v max _ hf
  refine ⟨key x y, fun hx hy => ?_, ?_, by decide, fun h1 => ?_⟩
  · exact Double.le_false_iff_lt (Double.norm_sq_is_number hx hy) (by decide)
  · exact (key two_and_a_half two_and_a_half).mpr (Or.inr (by decide))
  · obtain ⟨k, hk, hk0, -, -, -⟩ := iteration_count_ok (Double.of_int 2) zero hmax
    refine ⟨k, hk, ?_⟩
    by_contra hlt
    have hk00 : k = 0 := by omega
    subst hk00
    rcases (key (Double.of_int 2) zero).mp hk with hm | hl
    · omega
    · revert hl
      decide

/-- Witness for C9: the point `(2, 0)` with the cap `100`. -/
theorem escape_test_closed_boundary_witness :
    (iteration_count (Double.of_int 2) zero 100 = Except.ok 0 ↔
      (100 : Int) ≤ 0 ∨ Double.le (norm_sq (Double.of_int 2) zero) (Double.of_int 4) = false) ∧
    ((Double.of_int 2).is_nan = false → zero.is_nan = false →
      (Double.le (norm_sq (Double.of_int 2) zero) (Double.of_int 4) = false ↔
        Double.lt (Double.of_int 4) (norm_sq (Double.of_int 2) zero) = true)) ∧
    iteration_count two_and_a_half two_and_a_half 100 = Except.ok 0 ∧
    norm_sq (Double.of_int 2) zero = Double.of_int 4 ∧
    ((1 : Int) ≤ 100 →
      ∃ k, iteration_count (Double.of_int 2) zero 100 = Except.ok k ∧ 1 ≤ k) :=
  escape_test_closed_boundary (Double.of_int 2) zero 100 (by decide)

/-- Counterexample to C9 as stated: for `x` not a number the count is `0` with
the cap `5`, although neither `5 ≤ 0` nor `x*x + y*y > 4` holds. -/
theorem escape_test_nan :
    iteration_count Double.nan zero 5 = Except.ok 0 ∧ ¬ ((5 : Int) ≤ 0) ∧
      Double.lt (Double.of_int 4) (norm_sq Double.nan zero) = false ∧
      ¬ (iteration_count Double.nan zero 5 = Except.ok 0 ↔
        ((5 : Int) ≤ 0 ∨ Double.lt (Double.of_int 4) (norm_sq Double.nan zero) = true)) := by
  decide

/-! ## Rendering: the claims -/

/-- C3: for a configuration with width, height, thread count and cap all at
least `1` (and `int` values), after all threads have run, in any order, the
render has ended without a fault and every pixel `(i, j)` of the bitmap holds
exactly `iterations_at_point(xmin + i*(xmax-xmin)/width,
ymin + j*(ymax-ymin)/height, itermax)`; the same holds when the `bitmap_set`
calls of the threads are interleaved in any way. -/
theorem render_postcondition (c : config) (schedule : List Int)
    (hw : 1 ≤ c.image_width) (hh : 1 ≤ c.image_height) (hh2 : c.image_height ≤ INT_MAX)
    (hn : 1 ≤ c.num_threads) (hn2 : c.num_threads ≤ INT_MAX)
    (hm : 1 ≤ c.max_interations) (hm2 : c.max_interations ≤ INT_MAX)
    (hs : schedule.Perm (int_range 0 c.num_threads)) :
    (∃ bm, render c schedule = Except.ok bm ∧
      bitmap_width bm = c.image_width ∧ bitmap_height bm = c.image_height ∧
      ∀ i j, 0 ≤ i → i < c.image_width → 0 ≤ j → j < c.image_height →
        iterations_at_point (pixel_x (thread_args c 0) c.image_width i)
          (pixel_y (thread_args c 0) c.image_height j) c.max_interations =
            Except.ok (bitmap_get bm i j)) ∧
    (∀ per : Int → List pixel_write,
      (∀ t, 0 ≤ t → t < c.num_threads →
        compute_image_writes (thread_args c t) c.image_width c.image_height =
          Except.ok (per t)) →
      ∀ ws : List pixel_write, ws.Perm ((int_range 0 c.num_threads).flatMap per) →
        ∀ i j, 0 ≤ i → i < c.image_width → 0 ≤ j → j < c.image_height →
          iterations_at_point (pixel_x (thread_args c 0) c.image_width i)
            (pixel_y (thread_args c 0) c.image_height j) c.max_interations =
              Except.ok (bitmap_get (apply_writes (initial_bitmap c) ws) i j)) := by
  have hne : c.max_interations ≠ 0 := by omega
  have hcol : ∀ i j, iterations_at_point (pixel_x (thread_args c 0) c.image_width i)
      (pixel_y (thread_args c 0) c.image_height j) c.max_interations =
        Except.ok (pixel_color (thread_args c 0) c.image_width c.image_height i j) :=
    fun i j => pixel_color_spec (thread_args c 0) c.image_width c.image_height i j hm2 hne
  constructor
  · obtain ⟨bm, hr, -, hbw, hbh, hp⟩ := render_eq c hw hh hh2 hn hn2 hm2 hne schedule
      (mem_of_perm_int_range hs)
    refine ⟨bm, hr, hbw, hbh, fun i j hi0 hi hj0 hj => ?_⟩
    rw [hp i j hi0 hi hj0 hj]
    exact hcol i j
  · intro per hper ws hperm i j hi0 hi hj0 hj
    have hper2 : ∀ t, 0 ≤ t → t < c.num_threads →
        per t = thread_writes c c.image_width c.image_height t := by
      intro t ht0 ht
      have h1 := hper t ht0 ht
      rw [thread_writes_spec c _ _ t hh hh2 hn hn2 hm2 hne ht0 ht] at h1
      injection h1 with h1
      exact h1.symm
    rw [covered_pixels c hw hh hn ws _ _ i j hi0 hi hj0 hj]
    · exact hcol i j
    · intro w hwm
      obtain ⟨t, ht, hwt⟩ := List.mem_flatMap.mp ((hperm.mem_iff).mp hwm)
      rw [mem_int_range] at ht
      exact ⟨t, by rw [← hper2 t ht.1 ht.2]; exact hwt⟩
    · intro t ht0 ht w hwm
      apply (hperm.mem_iff).mpr
      apply List.mem_flatMap.mpr
      exact ⟨t, mem_int_range.mpr ⟨ht0, ht⟩, by rw [hper2 t ht0 ht]; exact hwm⟩

/-- Witness for C3: the example configuration with its threads run in the order 2, 0, 3, 1. -/
theorem render_postcondition_witness :
    (∃ bm, render example_config [2, 0, 3, 1] = Except.ok bm ∧
      bitmap_width bm = example_config.image_width ∧
      bitmap_height bm = example_config.image_height ∧
      ∀ i j, 0 ≤ i → i < example_config.image_width → 0 ≤ j →
        j < example_config.image_height →
        iterations_at_point (pixel_x (thread_args example_config 0) example_config.image_width i)
          (pixel_y (thread_args example_config 0) example_config.image_height j)
          example_config.max_interations = Except.ok (bitmap_get bm i j)) ∧
    (∀ per : Int → List pixel_write,
      (∀ t, 0 ≤ t → t < example_config.num_threads →
        compute_image_writes (thread_args example_config t) example_config.image_width
          example_config.image_height = Except.ok (per t)) →
      ∀ ws : List pixel_write,
        ws.Perm ((int_range 0 example_config.num_threads).flatMap per) →
        ∀ i j, 0 ≤ i → i < example_config.image_width → 0 ≤ j →
          j < example_config.image_height →
          iterations_at_point
            (pixel_x (thread_args example_config 0) example_config.image_width i)
            (pixel_y (thread_args example_config 0) example_config.image_height j)
            example_config.max_interations =
              Except.ok (bitmap_get (apply_writes (initial_bitmap example_config) ws) i j)) :=
  render_postcondition example_config [2, 0, 3, 1] (by decide) (by decide) (by decide)
    (by decide) (by decide) (by decide) (by decide) (by decide)

/-- C2: for a configuration with width, height, thread count and cap all at
least `1` (and `int` values), the bitmap obtained by running the threads
`0 .. num_threads - 1` in any order is the bitmap obtained with a single
thread. -/
theorem parallel_render_eq_single (c : config) (schedule : List Int)
    (hw : 1 ≤ c.image_width) (hh : 1 ≤ c.image_height) (hh2 : c.image_height ≤ INT_MAX)
    (hn : 1 ≤ c.num_threads) (hn2 : c.num_threads ≤ INT_MAX)
    (hm : 1 ≤ c.max_interations) (hm2 : c.max_interations ≤ INT_MAX)
    (hs : schedule.Perm (int_range 0 c.num_threads)) :
    ∃ bm, render c schedule = Except.ok bm ∧
      render { c with num_threads := 1 } [0] = Except.ok bm := by
  have hne : c.max_interations ≠ 0 := by omega
  obtain ⟨bm, hr, hwf, hbw, hbh, hp⟩ := render_eq c hw hh hh2 hn hn2 hm2 hne schedule
    (mem_of_perm_int_range hs)
  obtain ⟨bm1, hr1, hwf1, hbw1, hbh1, hp1⟩ := render_eq { c with num_threads := 1 } hw hh hh2
    (le_refl 1) (show (1 : Int) ≤ INT_MAX by decide) hm2 hne [0] (fun t => by
      rw [List.mem_singleton]
      show t = 0 ↔ 0 ≤ t ∧ t < 1
      omega)
  have hbb : bm = bm1 := by
    apply bitmap_ext hwf hwf1 (by rw [hbw, hbw1]) (by rw [hbh, hbh1])
    intro i j hi0 hi hj0 hj
    rw [hbw] at hi
    rw [hbh] at hj
    rw [hp i j hi0 hi hj0 hj, hp1 i j hi0 hi hj0 hj]
    rfl
  exact ⟨bm, hr, hbb ▸ hr1⟩

/-- Witness for C2: the example configuration, four threads run in the order
2, 0, 3, 1 against one thread. -/
theorem parallel_render_eq_single_witness :
    ∃ bm, render example_config [2, 0, 3, 1] = Except.ok bm ∧
      render { example_config with num_threads := 1 } [0] = Except.ok bm :=
  parallel_render_eq_single example_config [2, 0, 3, 1] (by decide) (by decide) (by decide)
    (by decide) (by decide) (by decide) (by decide) (by decide)

end Mandel
